import Mathlib

/-!
Verification of the YGOFM-PockStat-ENG patching tools.

This file gives a shallow embedding, in Lean 4, of the relocation engine
(`tools/rom_names.py`), the generic patch applier (`tools/rom_patches.py`)
and, where a claim needs it, the older single-purpose script
(`YGOFM-NamePatch.py`), together with theorems settling the specification
claims about them.

Modelling conventions:
* Python `bytes`/`bytearray` contents are `List Nat` (each element < 256 at
  the points where the source masks with `& 0xFF`).
* A mutable `bytearray` used as the in-memory ROM image is the structure
  `Img` below: a size together with a total function from positions to byte
  values; indexed assignment is a bounds-checked functional update
  (Python raises `IndexError` when out of range, modelled by `Option`).
* Python `dict` remap tables are `Char → Option Nat`; JSON manifests are
  modelled post-parsing (addresses as `Nat`, byte values as `List Nat`),
  with `dict` key order kept as list order where iteration order matters.
* Python exceptions are `Except`/`Option`; a raised exception propagates
  to the end of `main`, so each `main` is modelled as a state-passing
  function returning `Except (error × state) (result × state)`, the state
  holding the bytes of the on-disk file.
-/

/-- `POCKETSTATION_MEM_BASE` of `tools/rom_names.py`. -/
def POCKETSTATION_MEM_BASE : Nat := 0x02000000

/-- `TITLE_BLOCK_COUNT_OFFSET` of `tools/rom_names.py`. -/
def TITLE_BLOCK_COUNT_OFFSET : Nat := 0x03

/-- `BLOCK_SIZE` of `tools/rom_names.py` (8 KiB). -/
def BLOCK_SIZE : Nat := 0x2000

/-- `EXPECTED_CARD_COUNT` of `tools/rom_names.py`. -/
def EXPECTED_CARD_COUNT : Nat := 722

/-- `CARD_ENTRY_SIZE` of `tools/rom_names.py`. -/
def CARD_ENTRY_SIZE : Nat := 6

/-- `CARD_INDEX_HEADER_SIZE` of `tools/rom_names.py`. -/
def CARD_INDEX_HEADER_SIZE : Nat := 4

/-- The in-memory ROM image: a Python `bytearray` as a length plus a
byte-valued function on positions (positions ≥ `size` are junk). -/
structure Img where
  size : Nat
  data : Nat → Nat

/-- `rom[pos] = v`: bounds-checked single-byte store (Python raises
`IndexError` when `pos` is out of range). -/
def setByte (img : Img) (pos v : Nat) : Option Img :=
  if pos < img.size then some ⟨img.size, fun q => if q = pos then v else img.data q⟩
  else none

/-- The character-normalisation table of `normalizeName` in
`tools/rom_names.py` (curly quotes, dashes, fullwidth space, hash glyphs). -/
def normChar (c : Char) : Char :=
  if c = '’' then '\''
  else if c = '‘' then '\''
  else if c = '“' then '"'
  else if c = '”' then '"'
  else if c = '–' then '-'
  else if c = '—' then '-'
  else if c = '＃' then '#'
  else if c = '№' then '#'
  else if c = '　' then ' '
  else c

/-- `normalizeName` of `tools/rom_names.py`, on the string's characters. -/
def normalizeName (s : List Char) : List Char := s.map normChar

/-- `missing[ch] = missing.get(ch, 0) + 1` on an insertion-ordered dict:
increment the first entry with this key, else append `(c, 1)`. -/
def bump : List (Char × Nat) → Char → List (Char × Nat)
  | [], c => [(c, 1)]
  | (k, v) :: rest, c => if k = c then (k, v + 1) :: rest else (k, v) :: bump rest c

/-- `missing.get(c, 0)`: value of the first entry with key `c`, else 0. -/
def lookupCount : List (Char × Nat) → Char → Nat
  | [], _ => 0
  | (k, v) :: rest, c => if k = c then v else lookupCount rest c

/-- The fallback byte `encodeName` emits for a character absent from the
remap table in non-strict mode: the character's own ordinal when it is
printable ASCII, else the space code 0x20. -/
def fallbackByte (c : Char) : Nat :=
  if 0x20 ≤ c.toNat ∧ c.toNat ≤ 0x7E then c.toNat else 0x20

/-- The loop body of `encodeName` in `tools/rom_names.py`: walk the
(already normalised) characters, appending mapped codes to `out`; an
unmapped character is tallied into `missing` in strict mode and encoded
with `fallbackByte` otherwise. -/
def encodeLoop (remap : Char → Option Nat) (strict : Bool) :
    List Char → List Nat → List (Char × Nat) → List Nat × List (Char × Nat)
  | [], out, missing => (out, missing)
  | c :: rest, out, missing =>
    match remap c with
    | some code => encodeLoop remap strict rest (out ++ [code]) missing
    | none =>
      if strict then encodeLoop remap strict rest out (bump missing c)
      else encodeLoop remap strict rest (out ++ [fallbackByte c]) missing

/-- `encodeName` of `tools/rom_names.py`: normalise, encode each character
through the remap table; in strict mode a non-empty unmapped-character
tally raises `ValueError` carrying that tally. -/
def encodeName (name : List Char) (remap : Char → Option Nat) (strict : Bool) :
    Except (List (Char × Nat)) (List Nat) :=
  let r := encodeLoop remap strict (normalizeName name) [] []
  if strict then
    match r.2 with
    | [] => .ok r.1
    | m => .error m
  else .ok r.1

/-- The unmapped-character tally `encodeName` accumulates over a whole
(strict-mode) scan of `name`. -/
def missingOf (name : List Char) (remap : Char → Option Nat) : List (Char × Nat) :=
  (encodeLoop remap true (normalizeName name) [] []).2

/-- `offsets[i] = v` on a Python list: in-range functional update, else
`IndexError`. -/
def listSet (l : List Nat) (i v : Nat) : Option (List Nat) :=
  if i < l.length then some (l.set i v) else none

/-- The `for i, name in enumerate(names)` loop of `buildNameBlobAndOffsets`:
record the current buffer length as offset `i` (skipped for `i = 0`),
encode the name strictly, append it plus a 0x00 terminator. -/
def buildLoop (remap : Char → Option Nat) :
    List (List Char) → Nat → List Nat → List Nat → Option (List Nat × List Nat)
  | [], _, buf, offsets => some (buf, offsets)
  | name :: rest, i, buf, offsets =>
    match (if 0 < i then listSet offsets i buf.length else some offsets) with
    | none => none
    | some offsets1 =>
      match encodeName name remap true with
      | .error _ => none
      | .ok enc => buildLoop remap rest (i + 1) (buf ++ enc ++ [0]) offsets1

/-- `buildNameBlobAndOffsets` of `tools/rom_names.py`: 2-byte marker
`FA 21`, then each encoded name with terminator, offsets recorded into a
722-entry array initialised to 0, then pad with 0xFF to the next multiple
of `BLOCK_SIZE` (`pad = (-len(buf)) % BLOCK_SIZE`). -/
def buildNameBlobAndOffsets (names : List (List Char)) (remap : Char → Option Nat) :
    Option (List Nat × List Nat) :=
  match buildLoop remap names 0 [0xFA, 0x21] (List.replicate EXPECTED_CARD_COUNT 0) with
  | none => none
  | some (buf, offsets) =>
    some (buf ++ List.replicate ((BLOCK_SIZE - buf.length % BLOCK_SIZE) % BLOCK_SIZE) 0xFF,
          offsets)

/-- The byte length contributed to the blob by one successfully encoded
name: its encoded length plus the 0x00 terminator. -/
def encodedLenWithTerm (remap : Char → Option Nat) (s : List Char) : Nat :=
  match encodeName s remap true with
  | .ok bs => bs.length + 1
  | .error _ => 0

/-- Total blob length contributed by a list of names. -/
def sumEncLens (remap : Char → Option Nat) (l : List (List Char)) : Nat :=
  (l.map (encodedLenWithTerm remap)).sum

/-- The offsets array of a successful `buildNameBlobAndOffsets` run. -/
def offsetsOf (names : List (List Char)) (remap : Char → Option Nat) : Option (List Nat) :=
  (buildNameBlobAndOffsets names remap).map Prod.snd

/-- The (padded) blob length of a successful `buildNameBlobAndOffsets` run. -/
def blobLenOf (names : List (List Char)) (remap : Char → Option Nat) : Option Nat :=
  (buildNameBlobAndOffsets names remap).map fun p => p.1.length

/-- `computeBlockCount` of `tools/rom_names.py`:
`(effectiveSize + BLOCK_SIZE - 1) // BLOCK_SIZE`, i.e. ceiling division. -/
def computeBlockCount (effectiveSize : Nat) : Nat :=
  (effectiveSize + BLOCK_SIZE - 1) / BLOCK_SIZE

/-- `updateBlockCountHeader` of `tools/rom_names.py`: store
`newBlocks & 0xFF` at the block-count position and return `newBlocks`.
There is no check against `newBlocks` exceeding one byte. -/
def updateBlockCountHeader (rom : Img) (fileHeaderBlockCountPos effectiveSize : Nat) :
    Option (Img × Nat) :=
  match setByte rom fileHeaderBlockCountPos (computeBlockCount effectiveSize % 256) with
  | none => none
  | some rom1 => some (rom1, computeBlockCount effectiveSize)

/-- The header byte actually stored and the block count returned by a
successful `updateBlockCountHeader` run. -/
def headerByteAndCount (rom : Img) (pos effectiveSize : Nat) : Option (Nat × Nat) :=
  (updateBlockCountHeader rom pos effectiveSize).map fun p => (p.1.data pos, p.2)

/-- The `for i in range(EXPECTED_CARD_COUNT)` loop of
`patchCardIndexNameOffsets`, fuelled so that it computes by structural
recursion: at each step `val = offsets[i] & 0xFFFF` is stored little-endian
at bytes 4 and 5 of the 6-byte record `i`. -/
def patchIndexLoop (first : Nat) (offsets : List Nat) :
    Nat → Nat → Img → Option Img
  | 0, _, rom => some rom
  | fuel + 1, i, rom =>
    match offsets.get? i with
    | none => none
    | some v =>
      match setByte rom (first + i * CARD_ENTRY_SIZE + 4) (v % 0x10000 % 256) with
      | none => none
      | some rom1 =>
        match setByte rom1 (first + i * CARD_ENTRY_SIZE + 5) (v % 0x10000 / 256 % 256) with
        | none => none
        | some rom2 => patchIndexLoop first offsets fuel (i + 1) rom2

/-- `patchCardIndexNameOffsets` of `tools/rom_names.py`: rewrite the name
offset field of all 722 records. -/
def patchCardIndexNameOffsets (rom : Img) (fileFirstCardOffset : Nat)
    (nameOffsetsInBlob : List Nat) : Option Img :=
  patchIndexLoop fileFirstCardOffset nameOffsetsInBlob EXPECTED_CARD_COUNT 0 rom

/-- The little-endian 16-bit value stored at `pos`, `pos+1` of the image a
patching step produced. -/
def fieldAt (o : Option Img) (pos : Nat) : Option Nat :=
  o.map fun r => r.data pos + 256 * r.data (pos + 1)

/-- `setCardNamePointer` of `tools/rom_names.py`: store the 4-byte
little-endian pointer `POCKETSTATION_MEM_BASE + cardNameRomOffset`. -/
def setCardNamePointer (rom : Img) (filePointerOffset cardNameRomOffset : Nat) :
    Option Img :=
  let ptr := POCKETSTATION_MEM_BASE + cardNameRomOffset
  match setByte rom filePointerOffset (ptr % 256) with
  | none => none
  | some r1 =>
    match setByte r1 (filePointerOffset + 1) (ptr / 256 % 256) with
    | none => none
    | some r2 =>
      match setByte r2 (filePointerOffset + 2) (ptr / 65536 % 256) with
      | none => none
      | some r3 => setByte r3 (filePointerOffset + 3) (ptr / 16777216 % 256)

/-- `ensureRomSize` of `tools/rom_names.py`: extend the image with 0xFF up
to `requiredSize` when it is shorter. -/
def ensureRomSize (rom : Img) (requiredSize : Nat) : Img :=
  if rom.size < requiredSize then
    ⟨requiredSize, fun q => if q < rom.size then rom.data q else 0xFF⟩
  else rom

/-- `injectBlob` of `tools/rom_names.py`: grow the image to cover the blob,
then overwrite `fileAt ..< fileAt + len(blob)` with the blob bytes. -/
def injectBlob (rom : Img) (fileAt : Nat) (blob : List Nat) : Img :=
  let r := ensureRomSize rom (fileAt + blob.length)
  ⟨r.size, fun q =>
    if fileAt ≤ q ∧ q < fileAt + blob.length then blob.getD (q - fileAt) 0 else r.data q⟩

set_option maxRecDepth 40000

/-- One entry of a `patches.json` language section, modelled after
`parse_hex_or_int`/key extraction: address as a number, value as the raw
byte list, plus the name and active flag (`rom_patches.py`). -/
structure Patch where
  name : String
  addr : Nat
  value : List Nat
  active : Bool
deriving DecidableEq

/-- `parse_value_to_bytes` of `rom_patches.py` on an already tokenised
value: every item is masked to one byte (`& 0xFF`). -/
def parse_value_to_bytes (val : List Nat) : List Nat := val.map (· % 256)

/-- `rom_bytes[start:end] = data` when `len(data) = end - start`: an
in-place slice overwrite. -/
def writeSlice (rom : List Nat) (start : Nat) (data : List Nat) : List Nat :=
  rom.take start ++ data ++ rom.drop (start + data.length)

/-- `if only_name and name != only_name: continue` of `apply_patches`. -/
def skipForName (only_name : Option String) (name : String) : Bool :=
  match only_name with
  | some o => name != o
  | none => false

/-- `apply_patches` of `rom_patches.py`: walk the entries in manifest
order; skip filtered or inactive ones; fail (`ValueError`, carrying the
buffer state at the raise) when a write range exceeds the current image
length; report in dry-run mode or overwrite the slice otherwise, keeping a
running total of (would-be) written bytes. -/
def apply_patches (base_offset : Nat) (include_inactive : Bool)
    (only_name : Option String) (dry_run : Bool) :
    List Nat → List Patch → Nat → Except (String × List Nat) (List Nat × Nat)
  | rom_bytes, [], total => .ok (rom_bytes, total)
  | rom_bytes, entry :: rest, total =>
    if skipForName only_name entry.name then
      apply_patches base_offset include_inactive only_name dry_run rom_bytes rest total
    else if !entry.active && !include_inactive then
      apply_patches base_offset include_inactive only_name dry_run rom_bytes rest total
    else if rom_bytes.length <
        base_offset + entry.addr + (parse_value_to_bytes entry.value).length then
      .error ("Patch exceeds file size", rom_bytes)
    else if dry_run then
      apply_patches base_offset include_inactive only_name dry_run rom_bytes rest
        (total + (parse_value_to_bytes entry.value).length)
    else
      apply_patches base_offset include_inactive only_name dry_run
        (writeSlice rom_bytes (base_offset + entry.addr) (parse_value_to_bytes entry.value))
        rest (total + (parse_value_to_bytes entry.value).length)

/-- Exact dict lookup (`if lang_key in manifest`), on the manifest's keys
in insertion order. -/
def lookupExact {α : Type} : List (String × α) → String → Option α
  | [], _ => none
  | (k, v) :: rest, s => if k = s then some v else lookupExact rest s

/-- The case-insensitive fallback scan of `find_language_section`: the
first key whose lowercasing matches. -/
def lookupCaseFold {α : Type} : List (String × α) → String → Option α
  | [], _ => none
  | (k, v) :: rest, s =>
    if k.toLower = s.toLower then some v else lookupCaseFold rest s

/-- `find_language_section` of `rom_patches.py`: exact key match first,
then case-insensitive scan, else `KeyError`. -/
def find_language_section {α : Type} (manifest : List (String × α))
    (lang_key : String) : Except String α :=
  match lookupExact manifest lang_key with
  | some v => .ok v
  | none =>
    match lookupCaseFold manifest lang_key with
    | some v => .ok v
    | none => .error "Language not found in manifest"

/-- The single external resource of either pipeline: the bytes of the
target file on disk. -/
structure St where
  disk : List Nat
deriving DecidableEq

/-- `main` of `rom_patches.py`: select the language section, read the
file, apply the patches, and — only when every step succeeded and dry-run
is off — write the mutated buffer back. Faithful to the source, the
`--dry-run` flag is NOT forwarded to `apply_patches` (its `dry_run`
parameter keeps its `False` default); dry-run only skips the final
write-back. Errors abort with the disk state at the raise. The `ok` result
carries the final in-memory buffer and byte total for inspection. -/
def romPatchesMain (manifest : List (String × List Patch)) (language : String)
    (base_offset : Nat) (include_inactive : Bool) (only_name : Option String)
    (dry_run : Bool) (s : St) : Except (String × St) ((List Nat × Nat) × St) :=
  match find_language_section manifest language with
  | .error e => .error (e, s)
  | .ok patches =>
    match apply_patches base_offset include_inactive only_name false s.disk patches 0 with
    | .error ep => .error (ep.1, s)
    | .ok r =>
      if dry_run then .ok (r, s)
      else .ok (r, ⟨r.1⟩)

/-- `cards.json`, modelled post-parsing: the three address keys (absent
keys raise `KeyError`), the remap list, and the per-language
`{number, name}` lists in key insertion order. -/
structure CardsJson where
  card_index_offset : Option Nat
  card_name_offset : Option Nat
  card_lookup_address : Option Nat
  remap : List (Char × Nat)
  languages : List (String × List (Nat × List Char))
deriving DecidableEq

/-- `buildRemapTable` of `tools/rom_names.py`: a dict built left to right,
later entries overriding earlier ones. -/
def buildRemapTable (remapList : List (Char × Nat)) : Char → Option Nat :=
  remapList.foldl (fun table e => fun c => if c = e.1 then some e.2 else table c)
    (fun _ => none)

/-- The `byNum` dict of `loadLanguageNames`: number → name, later items
overriding earlier ones. -/
def buildByNum (items : List (Nat × List Char)) : Nat → Option (List Char) :=
  items.foldl (fun byNum item => fun q => if q = item.1 then some item.2 else byNum q)
    (fun _ => none)

/-- The `for num in range(1, EXPECTED_CARD_COUNT + 1)` loop of
`loadLanguageNames`: collect every card's name, failing on the first
missing number (`ValueError`). -/
def collectNames (byNum : Nat → Option (List Char)) :
    List Nat → Except String (List (List Char))
  | [] => .ok []
  | num :: rest =>
    match byNum num with
    | none => .error "ValueError: missing card name"
    | some nm => (collectNames byNum rest).map (nm :: ·)

/-- `loadLanguageNames` of `tools/rom_names.py`: exact language-key lookup
(`KeyError` when absent), then names for cards 1..722. -/
def loadLanguageNames (cardsJson : CardsJson) (language : String) :
    Except String (List (List Char)) :=
  match lookupExact cardsJson.languages language with
  | none => .error "KeyError: language"
  | some items =>
    collectNames (buildByNum items) ((List.range EXPECTED_CARD_COUNT).map (· + 1))

/-- The bytes of an image, for writing back to disk. -/
def imgToList (img : Img) : List Nat := (List.range img.size).map img.data

/-- An image loaded from the bytes of a file. -/
def listToImg (l : List Nat) : Img := ⟨l.length, fun i => l.getD i 0⟩

/-- `main` of `tools/rom_names.py`: resolve manifest keys, build remap and
names, build the blob, read the ROM; in dry-run stop after printing the
plan; otherwise inject the blob, rewrite the 722 index offsets, write the
lookup pointer, pad the file, update the block-count header, and only then
write the file back. Every failure aborts with the disk state at the
raise. -/
def romNamesMain (cardsJson : CardsJson) (language : String) (baseOffset : Nat)
    (dryRun : Bool) (s : St) : Except (String × St) (Unit × St) :=
  match cardsJson.card_index_offset, cardsJson.card_name_offset,
      cardsJson.card_lookup_address with
  | some cardIndexRomOffset, some cardNameRomOffset, some cardLookupRomAddr =>
    match loadLanguageNames cardsJson language with
    | .error e => .error (e, s)
    | .ok names =>
      match buildNameBlobAndOffsets names (buildRemapTable cardsJson.remap) with
      | none => .error ("ValueError: unmapped characters", s)
      | some bo =>
        if dryRun then .ok ((), s)
        else
          match patchCardIndexNameOffsets
              (injectBlob (listToImg s.disk) (baseOffset + cardNameRomOffset) bo.1)
              (baseOffset + cardIndexRomOffset + CARD_INDEX_HEADER_SIZE) bo.2 with
          | none => .error ("IndexError: card index", s)
          | some rom2 =>
            match setCardNamePointer rom2 (baseOffset + cardLookupRomAddr)
                cardNameRomOffset with
            | none => .error ("IndexError: lookup pointer", s)
            | some rom3 =>
              match updateBlockCountHeader
                  (ensureRomSize rom3
                    (max (listToImg s.disk).size (baseOffset + cardNameRomOffset + bo.1.length)))
                  (baseOffset + TITLE_BLOCK_COUNT_OFFSET)
                  ((ensureRomSize rom3
                    (max (listToImg s.disk).size
                      (baseOffset + cardNameRomOffset + bo.1.length))).size - baseOffset) with
              | none => .error ("IndexError: header", s)
              | some p => .ok ((), ⟨imgToList p.1⟩)
  | _, _, _ => .error ("KeyError: manifest", s)

theorem pad_mod_eq_zero (len : Nat) :
    (len + (BLOCK_SIZE - len % BLOCK_SIZE) % BLOCK_SIZE) % BLOCK_SIZE = 0 := by
  simp only [BLOCK_SIZE]
  omega

/-- C9: for every input list of strings that encodes successfully, the
built table's length (marker, encoded terminated strings, fill padding) is
an exact multiple of the block size 0x2000. -/
theorem blob_length_block_multiple (names : List (List Char))
    (remap : Char → Option Nat) (n : Nat)
    (h : blobLenOf names remap = some n) : n % BLOCK_SIZE = 0 := by
  unfold blobLenOf buildNameBlobAndOffsets at h
  cases hb : buildLoop remap names 0 [0xFA, 0x21] (List.replicate EXPECTED_CARD_COUNT 0) with
  | none => rw [hb] at h; simp at h
  | some p =>
    obtain ⟨buf, offsets⟩ := p
    rw [hb] at h
    simp only [Option.map_some'] at h
    obtain h := (Option.some_inj.mp h).symm
    rw [h, List.length_append, List.length_replicate]
    exact pad_mod_eq_zero buf.length

/-- C9 witness: a one-name table pads to exactly one 0x2000 block. -/
theorem blob_length_block_multiple_witness :
    blobLenOf [['A']] (fun c => if c = 'A' then some 65 else none) = some 0x2000 ∧
    (0x2000 : Nat) % BLOCK_SIZE = 0 := by
  have hloop : buildLoop (fun c => if c = 'A' then some 65 else none) [['A']] 0 [0xFA, 0x21]
      (List.replicate EXPECTED_CARD_COUNT 0) =
      some ([0xFA, 0x21, 65, 0], List.replicate EXPECTED_CARD_COUNT 0) := by decide
  have h : blobLenOf [['A']] (fun c => if c = 'A' then some 65 else none) = some 0x2000 := by
    unfold blobLenOf buildNameBlobAndOffsets
    rw [hloop]
    simp only [Option.map_some', List.length_append, List.length_replicate, List.length_cons,
      List.length_nil, BLOCK_SIZE]
  exact ⟨h, blob_length_block_multiple _ _ _ h⟩

/-- The code a character receives from `encodeName` in non-strict mode:
its remap-table code when mapped, else `fallbackByte` (the character's own
ordinal for printable ASCII, 0x20 otherwise). -/
def encCharNonStrict (remap : Char → Option Nat) (c : Char) : Nat :=
  match remap c with
  | some code => code
  | none => fallbackByte c

theorem encodeLoop_nonstrict (remap : Char → Option Nat) :
    ∀ (l : List Char) (out : List Nat) (missing : List (Char × Nat)),
      encodeLoop remap false l out missing =
        (out ++ l.map (encCharNonStrict remap), missing) := by
  intro l
  induction l with
  | nil => intro out missing; simp [encodeLoop]
  | cons c rest ih =>
    intro out missing
    cases hc : remap c with
    | some code => simp [encodeLoop, hc, ih, encCharNonStrict]
    | none => simp [encodeLoop, hc, ih, encCharNonStrict]

/-- C7 (amended): in non-strict mode, encode substitutes the character's
own ordinal for each unmapped character whose ordinal is printable ASCII
(0x20–0x7E) and the placeholder 0x20 for unmapped characters outside that
range; mapped characters get their table codes, and encoding never fails. -/
theorem encode_nonstrict_fallback_map (name : List Char) (remap : Char → Option Nat) :
    encodeName name remap false =
      .ok ((normalizeName name).map (encCharNonStrict remap)) := by
  unfold encodeName
  simp [encodeLoop_nonstrict]

/-- C7 counterexample: the unmapped printable-ASCII character `A` is
encoded as its own ordinal 0x41, not as the fixed placeholder 0x20, so the
unmapped character's ordinal does appear in the output. -/
theorem encode_nonstrict_pass_through_counterexample :
    encodeName ['A'] (fun _ => none) false = .ok [('A').toNat] ∧
    ('A').toNat = 0x41 ∧ (0x41 : Nat) ≠ 0x20 := by
  refine ⟨rfl, by decide, by decide⟩

/-- C3 (amended): the single-byte block-count header stores
`computeBlockCount effectiveSize & 0xFF` — the true ceiling block count
exactly when it is at most 255, and its mod-256 truncation otherwise,
with no overflow failure in `updateBlockCountHeader`. -/
theorem header_byte_mod_256 (rom : Img) (pos effectiveSize : Nat)
    (h : (updateBlockCountHeader rom pos effectiveSize).isSome) :
    headerByteAndCount rom pos effectiveSize =
      some (computeBlockCount effectiveSize % 256, computeBlockCount effectiveSize) ∧
    (computeBlockCount effectiveSize ≤ 255 →
      headerByteAndCount rom pos effectiveSize =
        some (computeBlockCount effectiveSize, computeBlockCount effectiveSize)) := by
  by_cases hp : pos < rom.size
  · constructor
    · simp [headerByteAndCount, updateBlockCountHeader, setByte, hp]
    · intro hle
      have : computeBlockCount effectiveSize % 256 = computeBlockCount effectiveSize :=
        Nat.mod_eq_of_lt (by omega)
      simp [headerByteAndCount, updateBlockCountHeader, setByte, hp, this]
  · simp [updateBlockCountHeader, setByte, hp] at h

/-- C3 witness: for an effective size of one block the stored byte is the
true block count 1. -/
theorem header_byte_mod_256_witness :
    (updateBlockCountHeader ⟨1, fun _ => 7⟩ 0 BLOCK_SIZE).isSome = true ∧
    headerByteAndCount ⟨1, fun _ => 7⟩ 0 BLOCK_SIZE = some (1, 1) := by
  refine ⟨by decide, ?_⟩
  have h := (header_byte_mod_256 ⟨1, fun _ => 7⟩ 0 BLOCK_SIZE (by decide)).2 (by decide)
  simpa using h

/-- C3 counterexample: with an effective size of 256 blocks (0x200000
bytes) the true block count 256 exceeds 255, yet `updateBlockCountHeader`
does not fail; it writes the mod-256 truncation 0. -/
theorem header_blockcount_truncated :
    computeBlockCount 0x200000 = 256 ∧ 255 < computeBlockCount 0x200000 ∧
    headerByteAndCount ⟨1, fun _ => 7⟩ 0 0x200000 = some (0, 256) := by
  refine ⟨by decide, by decide, by decide⟩

deriving instance DecidableEq for Except

theorem lookupExact_mem {α : Type} :
    ∀ (m : List (String × α)) (s : String) (v : α),
      lookupExact m s = some v → ∃ p ∈ m, p.1 = s ∧ p.2 = v := by
  intro m
  induction m with
  | nil => intro s v h; simp [lookupExact] at h
  | cons p rest ih =>
    intro s v h
    obtain ⟨k, w⟩ := p
    by_cases hk : k = s
    · simp [lookupExact, hk] at h
      exact ⟨(s, v), by simp [h.symm, hk]⟩
    · simp [lookupExact, hk] at h
      obtain ⟨q, hq, h1, h2⟩ := ih s v h
      exact ⟨q, by simp [hq], h1, h2⟩

theorem lookupCaseFold_mem {α : Type} :
    ∀ (m : List (String × α)) (s : String) (v : α),
      lookupCaseFold m s = some v → ∃ p ∈ m, p.1.toLower = s.toLower ∧ p.2 = v := by
  intro m
  induction m with
  | nil => intro s v h; simp [lookupCaseFold] at h
  | cons p rest ih =>
    intro s v h
    obtain ⟨k, w⟩ := p
    by_cases hk : k.toLower = s.toLower
    · simp [lookupCaseFold, hk] at h
      exact ⟨(k, v), by simp [h.symm], by simpa using hk, rfl⟩
    · simp [lookupCaseFold, hk] at h
      obtain ⟨q, hq, h1, h2⟩ := ih s v h
      exact ⟨q, by simp [hq], h1, h2⟩

theorem lookupCaseFold_none {α : Type} :
    ∀ (m : List (String × α)) (s : String),
      lookupCaseFold m s = none → ∀ p ∈ m, p.1.toLower ≠ s.toLower := by
  intro m
  induction m with
  | nil => intro s _ p hp; simp at hp
  | cons q rest ih =>
    intro s h p hp
    obtain ⟨k, w⟩ := q
    by_cases hk : k.toLower = s.toLower
    · simp [lookupCaseFold, hk] at h
    · simp [lookupCaseFold, hk] at h
      rcases List.mem_cons.mp hp with hq | hq
      · subst hq; simpa using hk
      · exact ih s h p hq

/-- C10: the language-section lookup returns the exact key's section when
the key is present; a returned section always belongs to a key equal to
the requested one ignoring case; and it errors exactly when no key of the
manifest matches even case-insensitively. -/
theorem find_language_section_spec {α : Type} (manifest : List (String × α))
    (lang_key : String) :
    (∀ v, lookupExact manifest lang_key = some v →
      find_language_section manifest lang_key = .ok v) ∧
    (∀ e, find_language_section manifest lang_key = .error e →
      ∀ p ∈ manifest, p.1.toLower ≠ lang_key.toLower) ∧
    (∀ v, find_language_section manifest lang_key = .ok v →
      ∃ p ∈ manifest, p.1.toLower = lang_key.toLower ∧ p.2 = v) := by
  refine ⟨fun v h => by simp [find_language_section, h], ?_, ?_⟩
  · intro e h
    unfold find_language_section at h
    cases hx : lookupExact manifest lang_key with
    | some v => rw [hx] at h; cases h
    | none =>
      rw [hx] at h
      cases hc : lookupCaseFold manifest lang_key with
      | some v => rw [hc] at h; cases h
      | none => exact lookupCaseFold_none manifest lang_key hc
  · intro v h
    unfold find_language_section at h
    cases hx : lookupExact manifest lang_key with
    | some w =>
      rw [hx] at h
      have hv : w = v := by
        have h' : (Except.ok w : Except String α) = .ok v := h
        injection h'
      obtain ⟨p, hp, h1, h2⟩ := lookupExact_mem manifest lang_key w hx
      exact ⟨p, hp, by rw [h1], by rw [h2, hv]⟩
    | none =>
      rw [hx] at h
      cases hc : lookupCaseFold manifest lang_key with
      | some w =>
        rw [hc] at h
        have hv : w = v := by
          have h' : (Except.ok w : Except String α) = .ok v := h
          injection h'
        obtain ⟨p, hp, h1, h2⟩ := lookupCaseFold_mem manifest lang_key w hc
        exact ⟨p, hp, h1, by rw [h2, hv]⟩
      | none => rw [hc] at h; cases h

theorem writeSlice_length (rom data : List Nat) (start : Nat)
    (h : start + data.length ≤ rom.length) :
    (writeSlice rom start data).length = rom.length := by
  unfold writeSlice
  rw [List.length_append, List.length_append, List.length_take, List.length_drop]
  omega

theorem apply_patches_length (base_offset : Nat) (include_inactive : Bool)
    (only_name : Option String) (dry_run : Bool) :
    ∀ (patches : List Patch) (rom : List Nat) (total : Nat),
      (∀ rom2 written,
        apply_patches base_offset include_inactive only_name dry_run rom patches total =
          .ok (rom2, written) → rom2.length = rom.length) ∧
      (∀ e r,
        apply_patches base_offset include_inactive only_name dry_run rom patches total =
          .error (e, r) → r.length = rom.length) := by
  intro patches
  induction patches with
  | nil =>
    intro rom total
    constructor
    · intro rom2 written h
      simp [apply_patches] at h
      rw [h.1]
    · intro e r h
      simp [apply_patches] at h
  | cons entry rest ih =>
    intro rom total
    by_cases h1 : skipForName only_name entry.name
    · simpa [apply_patches, h1] using ih rom total
    · by_cases h2 : (!entry.active && !include_inactive) = true
      · simpa [apply_patches, h1, h2] using ih rom total
      · by_cases h3 :
          rom.length < base_offset + entry.addr + (parse_value_to_bytes entry.value).length
        · constructor
          · intro rom2 written h
            simp [apply_patches, h1, h2, h3] at h
          · intro e r h
            simp [apply_patches, h1, h2, h3] at h
            rw [h.2]
        · by_cases h4 : dry_run
          · simpa [apply_patches, h1, h2, h3, h4] using
              ih rom (total + (parse_value_to_bytes entry.value).length)
          · have hws : (writeSlice rom (base_offset + entry.addr)
              (parse_value_to_bytes entry.value)).length = rom.length :=
              writeSlice_length _ _ _ (by omega)
            have := ih (writeSlice rom (base_offset + entry.addr)
              (parse_value_to_bytes entry.value))
              (total + (parse_value_to_bytes entry.value).length)
            rw [hws] at this
            simpa [apply_patches, h1, h2, h3, h4] using this

/-- C5: a patch entry whose target range `baseOffset + addr + len(bytes)`
exceeds the current image length makes `apply_patches` fail immediately
with the out-of-range error, leaving the buffer exactly as it was at that
entry; and the engine never changes the buffer length — neither a
successful run nor a failing one extends the image. -/
theorem apply_patches_out_of_range (base_offset : Nat) (include_inactive : Bool)
    (only_name : Option String) (dry_run : Bool) :
    (∀ (rom : List Nat) (entry : Patch) (rest : List Patch) (total : Nat),
      skipForName only_name entry.name = false →
      (!entry.active && !include_inactive) = false →
      rom.length < base_offset + entry.addr + (parse_value_to_bytes entry.value).length →
      apply_patches base_offset include_inactive only_name dry_run rom (entry :: rest)
        total = .error ("Patch exceeds file size", rom)) ∧
    (∀ (rom : List Nat) (patches : List Patch) (total : Nat) (rom2 : List Nat)
        (written : Nat),
      apply_patches base_offset include_inactive only_name dry_run rom patches total =
        .ok (rom2, written) → rom2.length = rom.length) ∧
    (∀ (rom : List Nat) (patches : List Patch) (total : Nat) (e : String)
        (r : List Nat),
      apply_patches base_offset include_inactive only_name dry_run rom patches total =
        .error (e, r) → r.length = rom.length) := by
  refine ⟨?_, ?_, ?_⟩
  · intro rom entry rest total h1 h2 h3
    simp [apply_patches, h1, h2, h3]
  · intro rom patches total rom2 written h
    exact (apply_patches_length base_offset include_inactive only_name dry_run
      patches rom total).1 rom2 written h
  · intro rom patches total e r h
    exact (apply_patches_length base_offset include_inactive only_name dry_run
      patches rom total).2 e r h

/-- C5 witness: a single one-byte patch at address 5 of a two-byte image
is out of range and fails with the buffer untouched; an in-range run keeps
the image length. -/
theorem apply_patches_out_of_range_witness :
    apply_patches 0 false none false [0, 0] [⟨"p", 5, [1], true⟩] 0 =
      .error ("Patch exceeds file size", [0, 0]) ∧
    apply_patches 0 false none false [0, 0] [⟨"p", 0, [1], true⟩] 0 = .ok ([1, 0], 1) := by
  constructor
  · exact (apply_patches_out_of_range 0 false none false).1 [0, 0] ⟨"p", 5, [1], true⟩ [] 0
      (by decide) (by decide) (by decide)
  · decide

/-- C6 (code-bug exhibit): `main` of `rom_patches.py` does not forward the
`--dry-run` flag to `apply_patches`, so a dry run still mutates the
in-memory buffer (here `[0x00]` becomes `[0xAB]`) and reports an actual
write — while `apply_patches` itself, given `dry_run = true` as its
signature intends, leaves the buffer unchanged and merely counts the
would-be bytes. The on-disk state is unchanged in both cases. -/
theorem dry_run_mutates_buffer :
    romPatchesMain [("english", [⟨"t", 0, [0xAB], true⟩])] "english" 0 false none true
      ⟨[0x00]⟩ = .ok (([0xAB], 1), ⟨[0x00]⟩) ∧
    apply_patches 0 false none true [0x00] [⟨"t", 0, [0xAB], true⟩] 0 =
      .ok ([0x00], 1) := by
  exact ⟨rfl, rfl⟩

/-- C4: in both pipelines every error aborts the run before the write-back
step: whenever `main` ends in an error, the bytes of the on-disk file are
exactly the bytes present when the run started. -/
theorem run_error_leaves_disk_unchanged :
    (∀ (cardsJson : CardsJson) (language : String) (baseOffset : Nat) (dryRun : Bool)
        (s : St) (e : String) (s' : St),
      romNamesMain cardsJson language baseOffset dryRun s = .error (e, s') →
        s'.disk = s.disk) ∧
    (∀ (manifest : List (String × List Patch)) (language : String) (base_offset : Nat)
        (include_inactive : Bool) (only_name : Option String) (dry_run : Bool)
        (s : St) (e : String) (s' : St),
      romPatchesMain manifest language base_offset include_inactive only_name dry_run s =
        .error (e, s') → s'.disk = s.disk) := by
  constructor
  · intro cardsJson language baseOffset dryRun s e s' h
    unfold romNamesMain at h
    repeat (any_goals (split at h))
    all_goals (cases h <;> rfl)
  · intro manifest language base_offset include_inactive only_name dry_run s e s' h
    unfold romPatchesMain at h
    repeat (any_goals (split at h))
    all_goals (cases h <;> rfl)

theorem lookupCount_bump_self : ∀ (m : List (Char × Nat)) (c : Char),
    lookupCount (bump m c) c = lookupCount m c + 1 := by
  intro m c
  induction m with
  | nil => simp [bump, lookupCount]
  | cons p rest ih =>
    obtain ⟨k, v⟩ := p
    by_cases hk : k = c
    · simp [bump, lookupCount, hk]
    · simp [bump, lookupCount, hk, ih]

theorem lookupCount_bump_ne : ∀ (m : List (Char × Nat)) (c d : Char), d ≠ c →
    lookupCount (bump m c) d = lookupCount m d := by
  intro m c d hdc
  induction m with
  | nil => simp [bump, lookupCount, Ne.symm hdc]
  | cons p rest ih =>
    obtain ⟨k, v⟩ := p
    by_cases hk : k = c
    · subst hk
      simp [bump, lookupCount, Ne.symm hdc]
    · by_cases hkd : k = d
      · subst hkd
        simp [bump, lookupCount, hk, hdc]
      · simp [bump, lookupCount, hk, hkd, ih]

theorem mem_of_lookupCount_pos : ∀ (m : List (Char × Nat)) (c : Char),
    0 < lookupCount m c → (c, lookupCount m c) ∈ m := by
  intro m c
  induction m with
  | nil => intro h; simp [lookupCount] at h
  | cons p rest ih =>
    obtain ⟨k, v⟩ := p
    intro h
    by_cases hk : k = c
    · have hv : lookupCount ((k, v) :: rest) c = v := by simp [lookupCount, hk]
      rw [hv, hk]
      exact List.mem_cons_self _ _
    · have hl : lookupCount ((k, v) :: rest) c = lookupCount rest c := by
        simp [lookupCount, hk]
      rw [hl] at h ⊢
      exact List.mem_cons_of_mem _ (ih h)

theorem encodeLoop_strict_count (remap : Char → Option Nat) :
    ∀ (l : List Char) (out : List Nat) (missing : List (Char × Nat)) (c : Char),
      remap c = none →
      lookupCount ((encodeLoop remap true l out missing).2) c =
        lookupCount missing c + l.count c := by
  intro l
  induction l with
  | nil => intro out missing c _; simp [encodeLoop]
  | cons d rest ih =>
    intro out missing c hc
    cases hd : remap d with
    | some code =>
      have hdc : d ≠ c := by
        intro hEq
        rw [hEq, hc] at hd
        cases hd
      rw [show encodeLoop remap true (d :: rest) out missing =
        encodeLoop remap true rest (out ++ [code]) missing by simp [encodeLoop, hd]]
      rw [ih (out ++ [code]) missing c hc]
      simp [List.count_cons, hdc]
    | none =>
      rw [show encodeLoop remap true (d :: rest) out missing =
        encodeLoop remap true rest out (bump missing d) by simp [encodeLoop, hd]]
      rw [ih out (bump missing d) c hc]
      by_cases hdc : d = c
      · subst hdc
        rw [lookupCount_bump_self]
        simp [List.count_cons]
        omega
      · rw [lookupCount_bump_ne missing d c (Ne.symm hdc)]
        simp [List.count_cons, hdc]

/-- C8: in strict mode, a string containing at least one unmapped
character (after normalisation) makes encode fail, and — having scanned
the whole string first — the error's tally contains every distinct
unmapped character paired with its full occurrence count. -/
theorem strict_error_lists_all_unmapped (name : List Char) (remap : Char → Option Nat)
    (h : ∃ c ∈ normalizeName name, remap c = none) :
    encodeName name remap true = .error (missingOf name remap) ∧
    ∀ c, c ∈ normalizeName name → remap c = none →
      (c, (normalizeName name).count c) ∈ missingOf name remap := by
  have key : ∀ c, remap c = none →
      lookupCount (missingOf name remap) c = (normalizeName name).count c := by
    intro c hc
    unfold missingOf
    rw [encodeLoop_strict_count remap (normalizeName name) [] [] c hc]
    simp [lookupCount]
  obtain ⟨c0, hc0, hr0⟩ := h
  have hpos : 0 < (normalizeName name).count c0 := List.count_pos_iff.mpr hc0
  have hne : missingOf name remap ≠ [] := by
    intro hem
    have := key c0 hr0
    rw [hem] at this
    simp [lookupCount] at this
    omega
  constructor
  · unfold encodeName
    cases hm : (encodeLoop remap true (normalizeName name) [] []).2 with
    | nil => exact absurd (by unfold missingOf; rw [hm]) hne
    | cons x xs =>
      have : missingOf name remap = x :: xs := by unfold missingOf; rw [hm]
      rw [this]
      simp [hm]
  · intro c hc hrc
    have hcpos : 0 < (normalizeName name).count c := List.count_pos_iff.mpr hc
    have hk := key c hrc
    have := mem_of_lookupCount_pos (missingOf name remap) c (by omega)
    rwa [hk] at this

/-- C8 witness: both distinct unmapped characters of `αβα` are listed,
with counts 2 and 1 — not just the first one. -/
theorem strict_error_lists_all_unmapped_witness :
    encodeName ['α', 'β', 'α'] (fun _ => none) true =
      .error (missingOf ['α', 'β', 'α'] (fun _ => none)) ∧
    ('α', 2) ∈ missingOf ['α', 'β', 'α'] (fun _ => none) ∧
    ('β', 1) ∈ missingOf ['α', 'β', 'α'] (fun _ => none) := by
  have h := strict_error_lists_all_unmapped ['α', 'β', 'α'] (fun _ => none)
    ⟨'α', by decide, rfl⟩
  refine ⟨h.1, ?_, ?_⟩
  · have h2 := h.2 'α' (by decide) rfl
    have hcount : (normalizeName ['α', 'β', 'α']).count 'α' = 2 := by decide
    rwa [hcount] at h2
  · have h2 := h.2 'β' (by decide) rfl
    have hcount : (normalizeName ['α', 'β', 'α']).count 'β' = 1 := by decide
    rwa [hcount] at h2

theorem getD_set_self (l : List Nat) (i v : Nat) (h : i < l.length) :
    (l.set i v).getD i 0 = v := by
  rw [List.getD_eq_getElem?_getD, List.getElem?_set_eq_of_lt v h]
  rfl

theorem getD_set_ne (l : List Nat) (i j v : Nat) (h : i ≠ j) :
    (l.set i v).getD j 0 = l.getD j 0 := by
  rw [List.getD_eq_getElem?_getD, List.getD_eq_getElem?_getD, List.getElem?_set_ne h]

theorem listSet_some (l : List Nat) (i v : Nat) (l1 : List Nat)
    (h : listSet l i v = some l1) : i < l.length ∧ l1 = l.set i v := by
  unfold listSet at h
  split at h
  · cases h
    exact ⟨by assumption, rfl⟩
  · cases h

theorem buildLoop_offsets_length (remap : Char → Option Nat) :
    ∀ (names : List (List Char)) (i : Nat) (buf offsets blob offs' : List Nat),
      buildLoop remap names i buf offsets = some (blob, offs') →
      offs'.length = offsets.length := by
  intro names
  induction names with
  | nil =>
    intro i buf offsets blob offs' h
    unfold buildLoop at h
    cases h
    rfl
  | cons name rest ih =>
    intro i buf offsets blob offs' h
    unfold buildLoop at h
    split at h
    · cases h
    · split at h
      · cases h
      · rename_i xo offsets1 hset xe enc henc
        have h2 := ih (i + 1) (buf ++ enc ++ [0]) offsets1 blob offs' h
        rw [h2]
        by_cases hi : 0 < i
        · rw [if_pos hi] at hset
          obtain ⟨_, rfl⟩ := listSet_some offsets i buf.length offsets1 hset
          exact List.length_set ..
        · rw [if_neg hi] at hset
          cases hset
          rfl

theorem buildLoop_getD_lt (remap : Char → Option Nat) :
    ∀ (names : List (List Char)) (i : Nat) (buf offsets blob offs' : List Nat),
      buildLoop remap names i buf offsets = some (blob, offs') →
      ∀ j, j < max 1 i → offs'.getD j 0 = offsets.getD j 0 := by
  intro names
  induction names with
  | nil =>
    intro i buf offsets blob offs' h j hj
    unfold buildLoop at h
    cases h
    rfl
  | cons name rest ih =>
    intro i buf offsets blob offs' h j hj
    unfold buildLoop at h
    split at h
    · cases h
    · split at h
      · cases h
      · rename_i xo offsets1 hset xe enc henc
        have h2 := ih (i + 1) (buf ++ enc ++ [0]) offsets1 blob offs' h j (by omega)
        rw [h2]
        by_cases hi : 0 < i
        · rw [if_pos hi] at hset
          obtain ⟨_, rfl⟩ := listSet_some offsets i buf.length offsets1 hset
          exact getD_set_ne offsets i j buf.length (by omega)
        · rw [if_neg hi] at hset
          cases hset
          rfl

theorem buildLoop_getD_rec (remap : Char → Option Nat) :
    ∀ (names : List (List Char)) (i : Nat) (buf offsets blob offs' : List Nat),
      1 ≤ i → buildLoop remap names i buf offsets = some (blob, offs') →
      ∀ k, k < names.length →
        offs'.getD (i + k) 0 = buf.length + sumEncLens remap (names.take k) := by
  intro names
  induction names with
  | nil =>
    intro i buf offsets blob offs' hi h k hk
    simp at hk
  | cons name rest ih =>
    intro i buf offsets blob offs' hi h k hk
    unfold buildLoop at h
    split at h
    · cases h
    · split at h
      · cases h
      · rename_i xo offsets1 hset xe enc henc
        rw [if_pos (by omega)] at hset
        obtain ⟨hilen, rfl⟩ := listSet_some offsets i buf.length offsets1 hset
        cases k with
        | zero =>
          have hpres := buildLoop_getD_lt remap rest (i + 1) (buf ++ enc ++ [0])
            (offsets.set i buf.length) blob offs' h i (by omega)
          rw [Nat.add_zero, hpres, getD_set_self offsets i buf.length hilen]
          simp [sumEncLens]
        | succ k' =>
          have hk' : k' < rest.length := by simpa using hk
          have hrec := ih (i + 1) (buf ++ enc ++ [0]) (offsets.set i buf.length)
            blob offs' (by omega) h k' hk'
          have hidx : i + (k' + 1) = i + 1 + k' := by omega
          rw [hidx, hrec]
          have hlen : (buf ++ enc ++ [0]).length = buf.length + (enc.length + 1) := by
            simp
          have htake : (name :: rest).take (k' + 1) = name :: rest.take k' :=
            List.take_succ_cons ..
          rw [htake]
          have hterm : encodedLenWithTerm remap name = enc.length + 1 := by
            unfold encodedLenWithTerm
            rw [henc]
          have hsum : sumEncLens remap (name :: rest.take k') =
              encodedLenWithTerm remap name + sumEncLens remap (rest.take k') := by
            simp [sumEncLens]
          rw [hsum, hterm, hlen]
          omega

/-- C1 (amended): for names that all encode successfully, the builder's
offsets array always has exactly `EXPECTED_CARD_COUNT` (722) entries —
independently of N, so equal to N exactly when N = 722 — with
`offsets[0] = 0`, and for every `0 < i < N` entry `i` equals the buffer
length (2-byte marker plus all earlier encoded names with their 0x00
terminators) immediately before name `i`'s bytes are appended. -/
theorem build_offsets_structure (names : List (List Char)) (remap : Char → Option Nat)
    (offs : List Nat) (h : offsetsOf names remap = some offs) :
    offs.length = EXPECTED_CARD_COUNT ∧ offs.getD 0 0 = 0 ∧
    ∀ i, 0 < i → i < names.length →
      offs.getD i 0 = 2 + sumEncLens remap (names.take i) := by
  unfold offsetsOf buildNameBlobAndOffsets at h
  cases hb : buildLoop remap names 0 [0xFA, 0x21] (List.replicate EXPECTED_CARD_COUNT 0) with
  | none => rw [hb] at h; cases h
  | some p =>
    obtain ⟨buf0, offs0⟩ := p
    rw [hb] at h
    simp only [Option.map_some'] at h
    have hoffs : offs0 = offs := by simpa using h
    subst hoffs
    refine ⟨?_, ?_, ?_⟩
    · rw [buildLoop_offsets_length remap names 0 [0xFA, 0x21]
        (List.replicate EXPECTED_CARD_COUNT 0) buf0 offs0 hb]
      exact List.length_replicate ..
    · cases names with
      | nil =>
        unfold buildLoop at hb
        cases hb
        rfl
      | cons name rest =>
        unfold buildLoop at hb
        split at hb
        · cases hb
        · split at hb
          · cases hb
          · rename_i xo offsets1 hset xe enc henc
            rw [if_neg (by omega)] at hset
            cases hset
            have hpres := buildLoop_getD_lt remap rest 1 ([0xFA, 0x21] ++ enc ++ [0])
              (List.replicate EXPECTED_CARD_COUNT 0) buf0 offs0 hb 0 (by omega)
            rw [hpres]
            rfl
    · intro i hi0 hiN
      cases names with
      | nil => simp at hiN
      | cons name rest =>
        unfold buildLoop at hb
        split at hb
        · cases hb
        · split at hb
          · cases hb
          · rename_i xo offsets1 hset xe enc henc
            rw [if_neg (by omega)] at hset
            cases hset
            have hk : i - 1 < rest.length := by
              simp at hiN
              omega
            have hrec := buildLoop_getD_rec remap rest 1 ([0xFA, 0x21] ++ enc ++ [0])
              (List.replicate EXPECTED_CARD_COUNT 0) buf0 offs0 (by omega) hb (i - 1) hk
            have hidx : 1 + (i - 1) = i := by omega
            rw [hidx] at hrec
            rw [hrec]
            have htake : (name :: rest).take i = name :: rest.take (i - 1) := by
              cases i with
              | zero => omega
              | succ n => simp [List.take_succ_cons]
            rw [htake]
            have hterm : encodedLenWithTerm remap name = enc.length + 1 := by
              unfold encodedLenWithTerm
              rw [henc]
            have hsum : sumEncLens remap (name :: rest.take (i - 1)) =
                encodedLenWithTerm remap name + sumEncLens remap (rest.take (i - 1)) := by
              simp [sumEncLens]
            rw [hsum, hterm]
            have hlen : (([0xFA, 0x21] : List Nat) ++ enc ++ [0]).length =
                2 + (enc.length + 1) := by
              simp only [List.length_append, List.length_cons, List.length_nil]
              omega
            rw [hlen]
            omega

/-- C1 witness: for the two names `A` and `BB`, the offsets array is the
722-entry zero array with entry 1 set to 4 — the marker (2 bytes) plus the
encoded `A` and its terminator (2 bytes). -/
theorem build_offsets_structure_witness :
    offsetsOf [['A'], ['B', 'B']]
      (fun c => if c = 'A' then some 65 else if c = 'B' then some 66 else none) =
      some ((List.replicate 722 0).set 1 4) ∧
    ((List.replicate 722 0).set 1 4).length = EXPECTED_CARD_COUNT ∧
    ((List.replicate 722 0).set 1 4).getD 0 0 = 0 ∧
    ((List.replicate 722 0).set 1 4).getD 1 0 = 2 +
      sumEncLens (fun c => if c = 'A' then some 65 else if c = 'B' then some 66 else none)
        ([['A'], ['B', 'B']].take 1) := by
  have h : offsetsOf [['A'], ['B', 'B']]
      (fun c => if c = 'A' then some 65 else if c = 'B' then some 66 else none) =
      some ((List.replicate 722 0).set 1 4) := by decide
  have hmain := build_offsets_structure [['A'], ['B', 'B']]
    (fun c => if c = 'A' then some 65 else if c = 'B' then some 66 else none)
    ((List.replicate 722 0).set 1 4) h
  exact ⟨h, hmain.1, hmain.2.1, hmain.2.2 1 (by decide) (by decide)⟩

/-- C1 counterexample: for a single-name list (N = 1) the offsets array
has 722 entries, not N — the claim's "exactly N entries" fails for every
N ≠ 722. -/
theorem build_offsets_not_length_N :
    (offsetsOf [['A']] (fun c => if c = 'A' then some 65 else none)).map List.length =
      some 722 ∧
    ([['A']] : List (List Char)).length = 1 ∧ (722 : Nat) ≠ 1 := by
  refine ⟨by decide, by decide, by decide⟩

theorem setByte_some (img : Img) (pos v : Nat) (img2 : Img)
    (h : setByte img pos v = some img2) :
    img2.size = img.size ∧ ∀ q, img2.data q = if q = pos then v else img.data q := by
  unfold setByte at h
  split at h
  · cases h
    exact ⟨rfl, fun q => rfl⟩
  · cases h

theorem getD_of_get? (l : List Nat) (i v : Nat) (h : l.get? i = some v) :
    l.getD i 0 = v := by
  rw [List.getD_eq_getElem?_getD, ← List.get?_eq_getElem?, h]
  rfl

theorem patchIndexLoop_preserve (first : Nat) (offsets : List Nat) :
    ∀ (fuel i : Nat) (rom rom' : Img),
      patchIndexLoop first offsets fuel i rom = some rom' →
      rom'.size = rom.size ∧
      ∀ pos, pos < first + i * CARD_ENTRY_SIZE + 4 → rom'.data pos = rom.data pos := by
  intro fuel
  induction fuel with
  | zero =>
    intro i rom rom' h
    unfold patchIndexLoop at h
    cases h
    exact ⟨rfl, fun pos _ => rfl⟩
  | succ fuel ih =>
    intro i rom rom' h
    unfold patchIndexLoop at h
    split at h
    · cases h
    · rename_i xv v hv
      split at h
      · cases h
      · rename_i x1 rom1 h1
        split at h
        · cases h
        · rename_i x2 rom2 h2
          obtain ⟨hs1, hd1⟩ := setByte_some rom (first + i * CARD_ENTRY_SIZE + 4)
            (v % 0x10000 % 256) rom1 h1
          obtain ⟨hs2, hd2⟩ := setByte_some rom1 (first + i * CARD_ENTRY_SIZE + 5)
            (v % 0x10000 / 256 % 256) rom2 h2
          obtain ⟨hs3, hd3⟩ := ih (i + 1) rom2 rom' h
          constructor
          · rw [hs3, hs2, hs1]
          · intro pos hpos
            have hlt : pos < first + (i + 1) * CARD_ENTRY_SIZE + 4 := by
              simp only [CARD_ENTRY_SIZE] at hpos ⊢
              omega
            rw [hd3 pos hlt, hd2 pos, hd1 pos]
            rw [if_neg (by simp only [CARD_ENTRY_SIZE] at hpos ⊢; omega),
              if_neg (by simp only [CARD_ENTRY_SIZE] at hpos ⊢; omega)]

theorem patchIndexLoop_field (first : Nat) (offsets : List Nat) :
    ∀ (fuel i : Nat) (rom rom' : Img),
      patchIndexLoop first offsets fuel i rom = some rom' →
      ∀ k, k < fuel →
        rom'.data (first + (i + k) * CARD_ENTRY_SIZE + 4) =
          offsets.getD (i + k) 0 % 0x10000 % 256 ∧
        rom'.data (first + (i + k) * CARD_ENTRY_SIZE + 5) =
          offsets.getD (i + k) 0 % 0x10000 / 256 % 256 := by
  intro fuel
  induction fuel with
  | zero =>
    intro i rom rom' h k hk
    omega
  | succ fuel ih =>
    intro i rom rom' h k hk
    unfold patchIndexLoop at h
    split at h
    · cases h
    · rename_i xv v hv
      split at h
      · cases h
      · rename_i x1 rom1 h1
        split at h
        · cases h
        · rename_i x2 rom2 h2
          obtain ⟨hs1, hd1⟩ := setByte_some rom (first + i * CARD_ENTRY_SIZE + 4)
            (v % 0x10000 % 256) rom1 h1
          obtain ⟨hs2, hd2⟩ := setByte_some rom1 (first + i * CARD_ENTRY_SIZE + 5)
            (v % 0x10000 / 256 % 256) rom2 h2
          cases k with
          | zero =>
            have hget : offsets.getD i 0 = v := getD_of_get? offsets i v hv
            have hpres := (patchIndexLoop_preserve first offsets fuel (i + 1) rom2 rom' h).2
            constructor
            · show rom'.data (first + i * CARD_ENTRY_SIZE + 4) =
                offsets.getD i 0 % 0x10000 % 256
              rw [hpres (first + i * CARD_ENTRY_SIZE + 4)
                (by simp only [CARD_ENTRY_SIZE]; omega)]
              rw [hd2, if_neg (by simp only [CARD_ENTRY_SIZE]; omega), hd1, if_pos rfl, hget]
            · show rom'.data (first + i * CARD_ENTRY_SIZE + 5) =
                offsets.getD i 0 % 0x10000 / 256 % 256
              rw [hpres (first + i * CARD_ENTRY_SIZE + 5)
                (by simp only [CARD_ENTRY_SIZE]; omega)]
              rw [hd2, if_pos rfl, hget]
          | succ k' =>
            have hrec := ih (i + 1) rom2 rom' h k' (by omega)
            have hidx : i + (k' + 1) = i + 1 + k' := by omega
            rw [hidx]
            exact hrec

/-- C2 (amended): `patchCardIndexNameOffsets` raises no overflow error;
for every record `i`, the stored little-endian 16-bit field equals
`offsets[i] & 0xFFFF` — exactly `offsets[i]` whenever it is at most
0xFFFF, and its mod-0x10000 truncation otherwise. -/
theorem index_offsets_stored_mod_65536 (rom : Img) (first : Nat) (offsets : List Nat)
    (i : Nat) (h : (patchCardIndexNameOffsets rom first offsets).isSome)
    (hi : i < EXPECTED_CARD_COUNT) :
    fieldAt (patchCardIndexNameOffsets rom first offsets)
      (first + i * CARD_ENTRY_SIZE + 4) = some (offsets.getD i 0 % 0x10000) ∧
    (offsets.getD i 0 ≤ 0xFFFF →
      fieldAt (patchCardIndexNameOffsets rom first offsets)
        (first + i * CARD_ENTRY_SIZE + 4) = some (offsets.getD i 0)) := by
  obtain ⟨rom', hr⟩ := Option.isSome_iff_exists.mp h
  have hf := patchIndexLoop_field first offsets EXPECTED_CARD_COUNT 0 rom rom' hr i hi
  simp only [Nat.zero_add] at hf
  have h4 : rom'.data (first + i * CARD_ENTRY_SIZE + 4) =
      offsets.getD i 0 % 0x10000 % 256 := hf.1
  have h5 : rom'.data (first + i * CARD_ENTRY_SIZE + 5) =
      offsets.getD i 0 % 0x10000 / 256 % 256 := hf.2
  have hmain : fieldAt (patchCardIndexNameOffsets rom first offsets)
      (first + i * CARD_ENTRY_SIZE + 4) = some (offsets.getD i 0 % 0x10000) := by
    unfold patchCardIndexNameOffsets at hr ⊢
    rw [hr]
    unfold fieldAt
    simp only [Option.map_some']
    have hidx : first + i * CARD_ENTRY_SIZE + 4 + 1 = first + i * CARD_ENTRY_SIZE + 5 := by
      omega
    rw [hidx, h4, h5]
    congr 1
    have hw : offsets.getD i 0 % 0x10000 < 0x10000 := Nat.mod_lt _ (by norm_num)
    have hdiv : offsets.getD i 0 % 0x10000 / 256 < 256 := by omega
    rw [Nat.mod_eq_of_lt hdiv]
    omega
  refine ⟨hmain, fun hle => ?_⟩
  rw [hmain]
  rw [Nat.mod_eq_of_lt (by omega)]

set_option maxHeartbeats 4000000 in
/-- C2 witness: patching an in-range offsets array (all entries 7) stores
exactly 7 in record 0's name-offset field, with no failure. -/
theorem index_offsets_stored_mod_65536_witness :
    (patchCardIndexNameOffsets ⟨4336, fun _ => 0⟩ 0 (List.replicate 722 7)).isSome = true ∧
    fieldAt (patchCardIndexNameOffsets ⟨4336, fun _ => 0⟩ 0 (List.replicate 722 7))
      (0 + 0 * CARD_ENTRY_SIZE + 4) = some ((List.replicate 722 7).getD 0 0) := by
  have hs : (patchCardIndexNameOffsets ⟨4336, fun _ => 0⟩ 0
      (List.replicate 722 7)).isSome = true := by decide
  have h2 := (index_offsets_stored_mod_65536 ⟨4336, fun _ => 0⟩ 0 (List.replicate 722 7)
    0 hs (by decide)).2 (by decide)
  exact ⟨hs, h2⟩

set_option maxHeartbeats 4000000 in
/-- C2 counterexample: with `offsets[0] = 0x10000` (exceeding 0xFFFF) the
index patcher does not fail — it succeeds and stores the truncation 0 in
the 16-bit field. -/
theorem index_offsets_overflow_truncated :
    (List.replicate 722 65536).getD 0 0 = 65536 ∧ (0xFFFF : Nat) < 65536 ∧
    fieldAt (patchCardIndexNameOffsets ⟨4336, fun _ => 0⟩ 0 (List.replicate 722 65536))
      4 = some 0 := by
  refine ⟨by decide, by decide, by decide⟩
